import Mathlib

/-!
Verification of the `rust-http-server` thread pool (`src/lib.rs`) and the HTTP
glue (`src/main.rs`).

The pool is embedded as a labelled transition system over an explicit state:

* A `Job` is identified by its submission index (a `Nat`): in the source each
  call to `ThreadPool::execute` boxes a fresh closure, so jobs are pairwise
  distinct tokens; the model makes this identity explicit with a counter.
* The mpsc channel is the FIFO list `queue` (head = oldest).  `Sender` being
  alive corresponds to `owner = .accepting`: `ThreadPool::drop` first takes the
  sender (`drop(self.sender.take())`) and then joins the workers in index
  order, which the phases `.joining k` and `.done` record.
* Each worker thread runs the loop of `Worker::new`:
  `let job = receiver.lock().unwrap().recv(); match job ...`.
  Its control point is one of
  - `idle`        : about to call `lock()` on the shared receiver,
  - `receiving`   : holding the `Mutex` lock, blocked inside `recv()`
                    (the temporary `MutexGuard` lives exactly for the
                    duration of the `recv` call),
  - `running j`   : lock released, executing job `j` (`job()`),
  - `terminated`  : `recv` returned `Err` (sender dropped and queue empty),
    the loop did `break` and the thread exited.
  Interleaving of the atomic steps below over all threads is the concurrency
  model; the `Mutex` is captured by `receiving` being the lock-holding state
  and the `acquire` step requiring that no other worker holds it.
* `submitted`, `claimed` and `executed` are history variables recording, in
  order, the jobs sent, the jobs returned by some worker's `recv`, and the
  (worker id, job) pairs whose closure ran to completion.
-/

namespace HttpServer

/-- Control point of one worker thread in the loop of `Worker::new`
(src/lib.rs lines 86-103). -/
inductive WState where
  | idle
  | receiving
  | running (job : Nat)
  | terminated
deriving DecidableEq

/-- A worker: its id (the loop index of `ThreadPool::new`) together with the
control point of the thread it owns. -/
structure Worker where
  id : Nat
  state : WState
deriving DecidableEq

/-- The job currently being executed by a worker, if any. -/
def Worker.jobOf (w : Worker) : Option Nat :=
  match w.state with
  | .running j => some j
  | _ => none

/-- Phase of the owning side of the pool.  `accepting`: the `sender` field is
`Some`.  `joining k`: `ThreadPool::drop` has dropped the sender and the join
loop has already joined workers `0..k`.  `done`: the join loop finished. -/
inductive OwnerPhase where
  | accepting
  | joining (k : Nat)
  | done
deriving DecidableEq

/-- Global state of the pool system. -/
structure PoolState where
  /-- Contents of the mpsc channel, head = oldest enqueued job. -/
  queue : List Nat
  /-- The `workers` vector of the `ThreadPool`, in construction order. -/
  workers : List Worker
  /-- Phase of the owner (whether the producer handle still exists). -/
  owner : OwnerPhase
  /-- Next fresh job token handed out by `execute`. -/
  nextId : Nat
  /-- History: jobs accepted by `send`, in submission order. -/
  submitted : List Nat
  /-- History: jobs returned by some `recv`, in dequeue order. -/
  claimed : List Nat
  /-- History: (worker id, job) pairs that ran to completion. -/
  executed : List (Nat × Nat)
deriving DecidableEq

/-- The producer handle (`sender : Option<mpsc::Sender<Job>>`) is alive iff the
owner is still accepting submissions: `drop` takes it when shutdown starts. -/
def PoolState.senderOpen (s : PoolState) : Bool :=
  s.owner = .accepting

/-- Jobs currently being executed, one entry per worker in the `running`
state. -/
def inflight (s : PoolState) : List Nat :=
  s.workers.filterMap Worker.jobOf

/-- The state built by `ThreadPool::new` after spawning `size` workers
(src/lib.rs lines 27-47): every worker parks on the receive loop, the channel
is empty, the sender is stored. -/
def initState (size : Nat) : PoolState where
  queue := []
  workers := (List.range size).map fun id => ⟨id, .idle⟩
  owner := .accepting
  nextId := 0
  submitted := []
  claimed := []
  executed := []

namespace ThreadPool

/-- Model of `ThreadPool::new(size)` (src/lib.rs lines 27-47): `assert!(size > 0)`
panics for `size = 0` (modelled as `none`); otherwise the channel is created,
`size` workers with ids `0..size` are spawned sharing the locked receiver, and
the sender is stored. -/
def new (size : Nat) : Option PoolState :=
  if size = 0 then none else some (initState size)

/-- Model of `ThreadPool::execute` (src/lib.rs lines 49-56): boxes the closure as a
fresh job token and does `self.sender.as_ref().unwrap().send(job).unwrap()`.
If the sender was already taken by `drop`, `unwrap` on `None` panics
(modelled as `.error`); otherwise `send` appends to the unbounded channel and
returns at once. -/
def execute (s : PoolState) : Except String PoolState :=
  match s.owner with
  | .accepting =>
      .ok { s with
              queue := s.queue ++ [s.nextId]
              submitted := s.submitted ++ [s.nextId]
              nextId := s.nextId + 1 }
  | _ => .error "panicked: unwrap on a None value"

end ThreadPool

/-- One atomic step of the pool system: a submission, a worker micro-step of
the `Worker::new` loop, or a step of `ThreadPool::drop`. -/
inductive Step : PoolState → PoolState → Prop where
  /-- A call of `execute` on a live pool: `send` appends the fresh job to the channel
  (src/lib.rs line 55). -/
  | submit (s : PoolState) (h : s.owner = .accepting) :
      Step s { s with
                 queue := s.queue ++ [s.nextId]
                 submitted := s.submitted ++ [s.nextId]
                 nextId := s.nextId + 1 }
  /-- The first statement of `ThreadPool::drop`:
  `drop(self.sender.take())` closes the channel, then the join loop starts at
  worker 0 (src/lib.rs lines 60-64). -/
  | startDrop (s : PoolState) (h : s.owner = .accepting) :
      Step s { s with owner := .joining 0 }
  /-- An idle worker acquires the receiver mutex (`receiver.lock().unwrap()`,
  src/lib.rs line 91); only possible while no other worker holds it. -/
  | acquire (s : PoolState) (i wid : Nat)
      (hw : s.workers[i]? = some ⟨wid, .idle⟩)
      (hlock : ∀ w ∈ s.workers, w.state ≠ .receiving) :
      Step s { s with workers := s.workers.set i ⟨wid, .receiving⟩ }
  /-- The call `recv()` returns `Ok(job)`: the head of the FIFO channel is removed and
  the guard is dropped at the end of the `let` statement, so the lock is
  released before the job runs (src/lib.rs lines 91-96). -/
  | recvOk (s : PoolState) (i wid j : Nat) (rest : List Nat)
      (hw : s.workers[i]? = some ⟨wid, .receiving⟩)
      (hq : s.queue = j :: rest) :
      Step s { s with
                 queue := rest
                 workers := s.workers.set i ⟨wid, .running j⟩
                 claimed := s.claimed ++ [j] }
  /-- The call `recv()` returns `Err`: only once the sender has been dropped and the
  channel has been drained; the worker breaks out of its loop and the thread
  exits (src/lib.rs lines 98-101). -/
  | recvDisc (s : PoolState) (i wid : Nat)
      (hw : s.workers[i]? = some ⟨wid, .receiving⟩)
      (hq : s.queue = [])
      (hc : s.owner ≠ .accepting) :
      Step s { s with workers := s.workers.set i ⟨wid, .terminated⟩ }
  /-- The claimed job's closure `job()` runs to completion and the worker
  loops back to the receive call (src/lib.rs line 95). -/
  | finish (s : PoolState) (i wid j : Nat)
      (hw : s.workers[i]? = some ⟨wid, .running j⟩) :
      Step s { s with
                 workers := s.workers.set i ⟨wid, .idle⟩
                 executed := s.executed ++ [(wid, j)] }
  /-- One iteration of the join loop of `ThreadPool::drop`
  (src/lib.rs lines 65-71): `thread.join()` returns only once worker `k`'s
  thread has exited, then the loop moves to the next worker. -/
  | joinStep (s : PoolState) (k wid : Nat)
      (ho : s.owner = .joining k)
      (hw : s.workers[k]? = some ⟨wid, .terminated⟩) :
      Step s { s with owner := .joining (k + 1) }
  /-- The join loop of `ThreadPool::drop` ends after the last worker. -/
  | finishDrop (s : PoolState) (k : Nat)
      (ho : s.owner = .joining k)
      (hk : s.workers.length = k) :
      Step s { s with owner := .done }

/-- States reachable from a freshly constructed pool of the given size. -/
def Reachable (size : Nat) (s : PoolState) : Prop :=
  Relation.ReflTransGen Step (initState size) s

/-! ### Generic list helpers -/

lemma filterMap_set_none_none {α β : Type} (f : α → Option β) (l : List α) (i : Nat) (a x : α)
    (h : l[i]? = some a) (hfa : f a = none) (hfx : f x = none) :
    (l.set i x).filterMap f = l.filterMap f := by
  induction l generalizing i with
  | nil => simp at h
  | cons hd tl ih =>
    cases i with
    | zero =>
      have ha : hd = a := by simpa using h
      subst ha
      simp [List.filterMap_cons, hfa, hfx]
    | succ n =>
      simp only [List.getElem?_cons_succ] at h
      simp only [List.set_cons_succ, List.filterMap_cons]
      rw [ih n h]

lemma filterMap_set_none_some {α β : Type} (f : α → Option β) (l : List α) (i : Nat)
    (a x : α) (c : β) (h : l[i]? = some a) (hfa : f a = none) (hfx : f x = some c) :
    ((l.set i x).filterMap f).Perm (c :: l.filterMap f) := by
  induction l generalizing i with
  | nil => simp at h
  | cons hd tl ih =>
    cases i with
    | zero =>
      have ha : hd = a := by simpa using h
      subst ha
      simp [List.filterMap_cons, hfa, hfx]
    | succ n =>
      simp only [List.getElem?_cons_succ] at h
      simp only [List.set_cons_succ, List.filterMap_cons]
      cases hfhd : f hd with
      | none => exact ih n h
      | some d => exact ((ih n h).cons d).trans (List.Perm.swap c d _)

lemma filterMap_set_some_none {α β : Type} (f : α → Option β) (l : List α) (i : Nat)
    (a x : α) (c : β) (h : l[i]? = some a) (hfa : f a = some c) (hfx : f x = none) :
    (l.filterMap f).Perm (c :: (l.set i x).filterMap f) := by
  induction l generalizing i with
  | nil => simp at h
  | cons hd tl ih =>
    cases i with
    | zero =>
      have ha : hd = a := by simpa using h
      subst ha
      simp [List.filterMap_cons, hfa, hfx]
    | succ n =>
      simp only [List.getElem?_cons_succ] at h
      simp only [List.set_cons_succ, List.filterMap_cons]
      cases hfhd : f hd with
      | none => exact ih n h
      | some d => exact ((ih n h).cons d).trans (List.Perm.swap c d _)

lemma sum_map_set {α : Type} (f : α → Nat) (l : List α) (i : Nat) (a x : α)
    (h : l[i]? = some a) :
    ((l.set i x).map f).sum + f a = (l.map f).sum + f x := by
  induction l generalizing i with
  | nil => simp at h
  | cons hd tl ih =>
    cases i with
    | zero =>
      have ha : hd = a := by simpa using h
      subst ha
      simp only [List.set_cons_zero, List.map_cons, List.sum_cons]
      omega
    | succ n =>
      simp only [List.getElem?_cons_succ] at h
      simp only [List.set_cons_succ, List.map_cons, List.sum_cons]
      have := ih n h
      omega

lemma set_getElem?_eq_self {α : Type} (l : List α) (i : Nat) (a : α) (h : l[i]? = some a) :
    l.set i a = l := by
  induction l generalizing i with
  | nil => rfl
  | cons hd tl ih =>
    cases i with
    | zero => simp_all
    | succ n =>
      simp only [List.getElem?_cons_succ] at h
      simp [List.set_cons_succ, ih n h]

lemma pairwise_of_filterMap_nodup {α β : Type} (f : α → Option β) :
    ∀ l : List α, (l.filterMap f).Nodup →
      l.Pairwise (fun a b => ∀ c, f a = some c → f b ≠ some c) := by
  intro l
  induction l with
  | nil => intro _; exact List.Pairwise.nil
  | cons hd tl ih =>
    intro h
    cases hfhd : f hd with
    | none =>
      rw [List.filterMap_cons, hfhd] at h
      refine List.Pairwise.cons ?_ (ih h)
      intro b _ c hc
      rw [hfhd] at hc; exact absurd hc (by simp)
    | some d =>
      rw [List.filterMap_cons, hfhd] at h
      rw [List.nodup_cons] at h
      refine List.Pairwise.cons ?_ (ih h.2)
      intro b hb c hc hbc
      rw [hfhd] at hc
      cases hc
      exact h.1 (List.mem_filterMap.2 ⟨b, hb, hbc⟩)

lemma getElem?_set_cases {α : Type} (l : List α) (i m : Nat) (x a : α)
    (h : (l.set i x)[m]? = some a) : (m = i ∧ a = x) ∨ (m ≠ i ∧ l[m]? = some a) := by
  by_cases hmi : m = i
  · subst hmi
    have hlen : m < l.length := by
      have := (List.getElem?_eq_some.1 h).1
      simpa [List.length_set] using this
    rw [List.getElem?_set_eq_of_lt x hlen] at h
    exact Or.inl ⟨rfl, by simpa using h.symm⟩
  · exact Or.inr ⟨hmi, by rwa [List.getElem?_set_ne (Ne.symm hmi)] at h⟩

lemma map_set_eq_of_eq {α β : Type} (f : α → β) (l : List α) (i : Nat) (a x : α)
    (h : l[i]? = some a) (hfa : f a = f x) :
    (l.set i x).map f = l.map f := by
  rw [List.map_set]
  exact set_getElem?_eq_self _ _ _ (by rw [List.getElem?_map, h]; simp [hfa])

/-! ### The global invariant -/

/-- The inductive invariant of the pool system, relative to the construction
size. -/
structure Inv (size : Nat) (s : PoolState) : Prop where
  /-- Workers carry the ids `0..size` handed out by the spawn loop. -/
  ids : s.workers.map Worker.id = List.range size
  /-- Every job token below `nextId` has been submitted, in order. -/
  sub : s.submitted = List.range s.nextId
  /-- FIFO: jobs are dequeued in exactly submission order. -/
  fifo : s.claimed ++ s.queue = s.submitted
  /-- Accounting: every claimed job is either still being executed by some
  worker or has run to completion, with multiplicities. -/
  acct : ((s.executed.map Prod.snd : List Nat) : Multiset Nat) + ↑(inflight s) = ↑s.claimed
  /-- Mutual exclusion: at most one worker holds the receiver mutex. -/
  lock : ∀ (i k : Nat) (wi wk : Worker), s.workers[i]? = some wi → s.workers[k]? = some wk →
      wi.state = .receiving → wk.state = .receiving → i = k
  /-- While the sender is alive no worker has seen a disconnect. -/
  live : s.owner = .accepting → ∀ w ∈ s.workers, w.state ≠ .terminated
  /-- The join loop of `drop` only passes workers whose threads exited. -/
  joined : ∀ k, s.owner = .joining k → k ≤ s.workers.length ∧
      ∀ i w, i < k → s.workers[i]? = some w → w.state = .terminated
  /-- Once `drop` returned, every worker thread has exited. -/
  doneAll : s.owner = .done → ∀ w ∈ s.workers, w.state = .terminated
  /-- Workers only disconnect on a drained channel, and the channel never
  refills afterwards. -/
  drained : s.workers ≠ [] → (∀ w ∈ s.workers, w.state = .terminated) → s.queue = []
  /-- With a single worker, completions happen in claim order. -/
  single : s.workers.length = 1 → s.executed.map Prod.snd ++ inflight s = s.claimed

lemma inv_init (size : Nat) : Inv size (initState size) where
  ids := by
    show ((List.range size).map fun id => (⟨id, .idle⟩ : Worker)).map Worker.id = _
    rw [List.map_map]
    exact List.map_id'' (fun _ => rfl) _
  sub := rfl
  fifo := rfl
  acct := by simp [initState, inflight, Worker.jobOf]
  lock := by
    intro i k wi wk hi hk hri hrk
    have : wi ∈ (List.range size).map fun id => (⟨id, .idle⟩ : Worker) :=
      List.getElem?_mem hi
    obtain ⟨n, _, hn⟩ := List.mem_map.1 this
    rw [← hn] at hri
    exact absurd hri (by simp)
  live := by
    intro _ w hw
    obtain ⟨n, _, hn⟩ := List.mem_map.1 hw
    rw [← hn]
    simp
  joined := by intro k hk; exact absurd hk (by simp [initState])
  doneAll := by intro hk; exact absurd hk (by simp [initState])
  drained := by intro _ _; rfl
  single := by intro _; simp [initState, inflight, Worker.jobOf]

lemma eq_singleton_of_length_one {α : Type} (l : List α) (hl : l.length = 1) (i : Nat) (a : α)
    (h : l[i]? = some a) : l = [a] ∧ i = 0 := by
  cases l with
  | nil => simp at hl
  | cons hd tl =>
    cases tl with
    | nil =>
      cases i with
      | zero => simp_all
      | succ n => simp at h
    | cons h2 t2 => simp at hl

lemma inv_step {size : Nat} {s t : PoolState} (inv : Inv size s) (hst : Step s t) :
    Inv size t := by
  obtain ⟨ids, sub, fifo, acct, lock, live, joined, doneAll, drained, single⟩ := inv
  cases hst with
  | submit h =>
    refine ⟨ids, ?_, ?_, acct, lock, ?_, joined, doneAll, ?_, single⟩
    · show s.submitted ++ [s.nextId] = List.range (s.nextId + 1)
      rw [List.range_succ, sub]
    · show s.claimed ++ (s.queue ++ [s.nextId]) = s.submitted ++ [s.nextId]
      rw [← List.append_assoc, fifo]
    · exact live
    · intro hne hterm
      obtain ⟨w, hwmem⟩ := List.exists_mem_of_ne_nil _ hne
      exact absurd (hterm w hwmem) (live h w hwmem)
  | startDrop h =>
    refine ⟨ids, sub, fifo, acct, lock, ?_, ?_, ?_, drained, single⟩
    · intro hco; simp at hco
    · intro k hk
      have hk0 : 0 = k := by injection hk
      subst hk0
      exact ⟨Nat.zero_le _, fun i w hi _ => absurd hi (Nat.not_lt_zero i)⟩
    · intro hdone; simp at hdone
  | acquire i wid hw hlock =>
    have hilen : i < s.workers.length := (List.getElem?_eq_some.1 hw).1
    refine ⟨?_, sub, fifo, ?_, ?_, ?_, ?_, ?_, ?_, ?_⟩
    · show (s.workers.set i ⟨wid, .receiving⟩).map Worker.id = _
      rw [map_set_eq_of_eq Worker.id s.workers i ⟨wid, .idle⟩ ⟨wid, .receiving⟩ hw rfl]
      exact ids
    · show (_ : Multiset Nat) + ↑(List.filterMap Worker.jobOf
          (s.workers.set i ⟨wid, .receiving⟩)) = _
      rw [filterMap_set_none_none Worker.jobOf s.workers i ⟨wid, .idle⟩ ⟨wid, .receiving⟩
        hw rfl rfl]
      exact acct
    · intro m n wm wn hm hn hrm hrn
      rcases getElem?_set_cases _ _ _ _ _ hm with ⟨hmi, _⟩ | ⟨_, holdm⟩
      · rcases getElem?_set_cases _ _ _ _ _ hn with ⟨hni, _⟩ | ⟨_, holdn⟩
        · exact hmi.trans hni.symm
        · exact absurd hrn (hlock wn (List.getElem?_mem holdn))
      · exact absurd hrm (hlock wm (List.getElem?_mem holdm))
    · intro hacc w hwmem
      rcases List.mem_or_eq_of_mem_set hwmem with hold | rfl
      · exact live hacc w hold
      · exact (by decide : WState.receiving ≠ WState.terminated)
    · intro k hk
      obtain ⟨hkle, hj⟩ := joined k hk
      refine ⟨by simpa [List.length_set] using hkle, ?_⟩
      intro m w hm hmw
      rcases getElem?_set_cases _ _ _ _ _ hmw with ⟨hmi, rfl⟩ | ⟨_, hold⟩
      · subst hmi
        have hcontra := hj m _ hm hw
        simp at hcontra
      · exact hj m w hm hold
    · intro hdone
      have hcontra := doneAll hdone _ (List.getElem?_mem hw)
      simp at hcontra
    · intro hne hterm
      have : (⟨wid, .receiving⟩ : Worker) ∈ s.workers.set i ⟨wid, .receiving⟩ :=
        List.getElem?_mem (List.getElem?_set_eq_of_lt _ hilen)
      have hcontra := hterm _ this
      simp at hcontra
    · intro hlen
      have hlen1 : s.workers.length = 1 := by simpa [List.length_set] using hlen
      obtain ⟨hsw, hi0⟩ := eq_singleton_of_length_one s.workers hlen1 i _ hw
      have h1 := single hlen1
      simp only [inflight, hsw, hi0] at h1 ⊢
      simpa [Worker.jobOf] using h1
  | recvOk i wid j rest hw hq =>
    have hilen : i < s.workers.length := (List.getElem?_eq_some.1 hw).1
    have hperm := filterMap_set_none_some Worker.jobOf s.workers i _ ⟨wid, .running j⟩ j hw rfl rfl
    refine ⟨?_, sub, ?_, ?_, ?_, ?_, ?_, ?_, ?_, ?_⟩
    · show (s.workers.set i ⟨wid, .running j⟩).map Worker.id = _
      rw [map_set_eq_of_eq Worker.id s.workers i ⟨wid, .receiving⟩ ⟨wid, .running j⟩ hw rfl]
      exact ids
    · show (s.claimed ++ [j]) ++ rest = s.submitted
      rw [List.append_assoc]
      simpa [← hq] using fifo
    · simp only [inflight] at acct
      show (↑(List.map Prod.snd s.executed) : Multiset Nat) + ↑(List.filterMap Worker.jobOf
          (s.workers.set i ⟨wid, .running j⟩)) = ↑(s.claimed ++ [j])
      rw [Multiset.coe_eq_coe.2 hperm]
      have hr : (↑(s.claimed ++ [j]) : Multiset Nat) = ↑s.claimed + {j} := by
        rw [← Multiset.coe_add]; rfl
      rw [hr, ← acct]
      have hcons : ((j :: List.filterMap Worker.jobOf s.workers : List Nat) : Multiset Nat)
          = {j} + ↑(List.filterMap Worker.jobOf s.workers) := by
        rw [← Multiset.cons_coe, Multiset.singleton_add]
      rw [hcons]
      abel
    · intro m n wm wn hm hn hrm hrn
      rcases getElem?_set_cases _ _ _ _ _ hm with ⟨hmi, rfl⟩ | ⟨hmne, holdm⟩
      · simp at hrm
      · rcases getElem?_set_cases _ _ _ _ _ hn with ⟨hni, rfl⟩ | ⟨hnne, holdn⟩
        · simp at hrn
        · exact lock m n wm wn holdm holdn hrm hrn
    · intro hacc w hwmem
      rcases List.mem_or_eq_of_mem_set hwmem with hold | rfl
      · exact live hacc w hold
      · exact (by simp : WState.running j ≠ WState.terminated)
    · intro k hk
      obtain ⟨hkle, hj⟩ := joined k hk
      refine ⟨by simpa [List.length_set] using hkle, ?_⟩
      intro m w hm hmw
      rcases getElem?_set_cases _ _ _ _ _ hmw with ⟨hmi, rfl⟩ | ⟨_, hold⟩
      · subst hmi
        have hcontra := hj m _ hm hw
        simp at hcontra
      · exact hj m w hm hold
    · intro hdone
      have hcontra := doneAll hdone _ (List.getElem?_mem hw)
      simp at hcontra
    · intro hne hterm
      have : (⟨wid, .running j⟩ : Worker) ∈ s.workers.set i ⟨wid, .running j⟩ :=
        List.getElem?_mem (List.getElem?_set_eq_of_lt _ hilen)
      have hcontra := hterm _ this
      simp at hcontra
    · intro hlen
      have hlen1 : s.workers.length = 1 := by simpa [List.length_set] using hlen
      obtain ⟨hsw, hi0⟩ := eq_singleton_of_length_one s.workers hlen1 i _ hw
      have h1 := single hlen1
      simp only [inflight, hsw, hi0] at h1 ⊢
      simp [Worker.jobOf] at h1 ⊢
      exact h1
  | recvDisc i wid hw hq hc =>
    have hilen : i < s.workers.length := (List.getElem?_eq_some.1 hw).1
    refine ⟨?_, sub, fifo, ?_, ?_, ?_, ?_, ?_, ?_, ?_⟩
    · show (s.workers.set i ⟨wid, .terminated⟩).map Worker.id = _
      rw [map_set_eq_of_eq Worker.id s.workers i ⟨wid, .receiving⟩ ⟨wid, .terminated⟩ hw rfl]
      exact ids
    · show (_ : Multiset Nat) + ↑(List.filterMap Worker.jobOf
          (s.workers.set i ⟨wid, .terminated⟩)) = _
      rw [filterMap_set_none_none Worker.jobOf s.workers i ⟨wid, .receiving⟩ ⟨wid, .terminated⟩
        hw rfl rfl]
      exact acct
    · intro m n wm wn hm hn hrm hrn
      rcases getElem?_set_cases _ _ _ _ _ hm with ⟨hmi, rfl⟩ | ⟨hmne, holdm⟩
      · simp at hrm
      · rcases getElem?_set_cases _ _ _ _ _ hn with ⟨hni, rfl⟩ | ⟨hnne, holdn⟩
        · simp at hrn
        · exact lock m n wm wn holdm holdn hrm hrn
    · intro hacc
      exact absurd hacc hc
    · intro k hk
      obtain ⟨hkle, hj⟩ := joined k hk
      refine ⟨by simpa [List.length_set] using hkle, ?_⟩
      intro m w hm hmw
      rcases getElem?_set_cases _ _ _ _ _ hmw with ⟨hmi, rfl⟩ | ⟨_, hold⟩
      · rfl
      · exact hj m w hm hold
    · intro hdone
      have hcontra := doneAll hdone _ (List.getElem?_mem hw)
      simp at hcontra
    · intro _ _
      exact hq
    · intro hlen
      have hlen1 : s.workers.length = 1 := by simpa [List.length_set] using hlen
      obtain ⟨hsw, hi0⟩ := eq_singleton_of_length_one s.workers hlen1 i _ hw
      have h1 := single hlen1
      simp only [inflight, hsw, hi0] at h1 ⊢
      simpa [Worker.jobOf] using h1
  | finish i wid j hw =>
    have hilen : i < s.workers.length := (List.getElem?_eq_some.1 hw).1
    have hperm := filterMap_set_some_none Worker.jobOf s.workers i _ ⟨wid, .idle⟩ j hw rfl rfl
    refine ⟨?_, sub, fifo, ?_, ?_, ?_, ?_, ?_, ?_, ?_⟩
    · show (s.workers.set i ⟨wid, .idle⟩).map Worker.id = _
      rw [map_set_eq_of_eq Worker.id s.workers i ⟨wid, .running j⟩ ⟨wid, .idle⟩ hw rfl]
      exact ids
    · simp only [inflight] at acct
      show (↑((s.executed ++ [(wid, j)]).map Prod.snd) : Multiset Nat)
          + ↑(List.filterMap Worker.jobOf (s.workers.set i ⟨wid, .idle⟩)) = ↑s.claimed
      rw [← acct]
      have hl : (↑((s.executed ++ [(wid, j)]).map Prod.snd) : Multiset Nat)
          = ↑(s.executed.map Prod.snd) + {j} := by
        rw [List.map_append, ← Multiset.coe_add]; rfl
      have hr : (↑(List.filterMap Worker.jobOf s.workers) : Multiset Nat)
          = {j} + ↑(List.filterMap Worker.jobOf (s.workers.set i ⟨wid, .idle⟩)) := by
        have hco := Multiset.coe_eq_coe.2 hperm
        simpa [Multiset.singleton_add] using hco
      rw [hl, hr]
      abel
    · intro m n wm wn hm hn hrm hrn
      rcases getElem?_set_cases _ _ _ _ _ hm with ⟨hmi, rfl⟩ | ⟨hmne, holdm⟩
      · simp at hrm
      · rcases getElem?_set_cases _ _ _ _ _ hn with ⟨hni, rfl⟩ | ⟨hnne, holdn⟩
        · simp at hrn
        · exact lock m n wm wn holdm holdn hrm hrn
    · intro hacc w hwmem
      rcases List.mem_or_eq_of_mem_set hwmem with hold | rfl
      · exact live hacc w hold
      · exact (by decide : WState.idle ≠ WState.terminated)
    · intro k hk
      obtain ⟨hkle, hj⟩ := joined k hk
      refine ⟨by simpa [List.length_set] using hkle, ?_⟩
      intro m w hm hmw
      rcases getElem?_set_cases _ _ _ _ _ hmw with ⟨hmi, rfl⟩ | ⟨_, hold⟩
      · subst hmi
        have hcontra := hj m _ hm hw
        simp at hcontra
      · exact hj m w hm hold
    · intro hdone
      have hcontra := doneAll hdone _ (List.getElem?_mem hw)
      simp at hcontra
    · intro hne hterm
      have : (⟨wid, .idle⟩ : Worker) ∈ s.workers.set i ⟨wid, .idle⟩ :=
        List.getElem?_mem (List.getElem?_set_eq_of_lt _ hilen)
      have hcontra := hterm _ this
      simp at hcontra
    · intro hlen
      have hlen1 : s.workers.length = 1 := by simpa [List.length_set] using hlen
      obtain ⟨hsw, hi0⟩ := eq_singleton_of_length_one s.workers hlen1 i _ hw
      have h1 := single hlen1
      simp only [inflight, hsw, hi0] at h1 ⊢
      simp [Worker.jobOf] at h1 ⊢
      simpa using h1
  | joinStep k wid ho hw =>
    have hklen : k < s.workers.length := (List.getElem?_eq_some.1 hw).1
    refine ⟨ids, sub, fifo, acct, lock, ?_, ?_, ?_, drained, single⟩
    · intro hacc; simp at hacc
    · intro k' hk'
      have hkk : k + 1 = k' := by injection hk'
      subst hkk
      obtain ⟨hkle, hj⟩ := joined k ho
      refine ⟨show k + 1 ≤ s.workers.length by omega, ?_⟩
      intro m w hm hmw
      by_cases hmk : m = k
      · subst hmk
        rw [hw] at hmw
        cases hmw
        rfl
      · exact hj m w (by omega) hmw
    · intro hdone; simp at hdone
  | finishDrop k ho hk =>
    refine ⟨ids, sub, fifo, acct, lock, ?_, ?_, ?_, drained, single⟩
    · intro hacc; simp at hacc
    · intro k' hk'; simp at hk'
    · intro _ w hwmem
      obtain ⟨_, hj⟩ := joined k ho
      obtain ⟨idx, hidx⟩ := List.mem_iff_getElem?.1 hwmem
      have hlt : idx < k := by
        have hidxlen : idx < s.workers.length := (List.getElem?_eq_some.1 hidx).1
        omega
      exact hj idx w hlt hidx

lemma reachable_inv {size : Nat} {s : PoolState} (h : Reachable size s) : Inv size s := by
  induction h with
  | refl => exact inv_init size
  | tail _ hstep ih => exact inv_step ih hstep

/-! ### The join loop of `ThreadPool::drop` with thread outcomes -/

/-- Outcome of a worker thread, as observed by `JoinHandle::join`. -/
inductive ThreadOutcome where
  | finished
  | panicked
deriving DecidableEq

/-- Model of `JoinHandle::join`: it returns `Err` exactly when the joined thread panicked. -/
def joinThread : ThreadOutcome → Except String Unit
  | .finished => .ok ()
  | .panicked => .error "thread panicked"

/-- The join loop of `ThreadPool::drop` (src/lib.rs lines 65-71):
for each worker in order, `if let Some(thread) = worker.thread.take()` skips a
missing handle, and `thread.join().unwrap()` propagates a join failure as a
panic of the caller (modelled as `.error`). -/
def dropJoinAll : List (Option ThreadOutcome) → Except String Unit
  | [] => .ok ()
  | none :: ws => dropJoinAll ws
  | some th :: ws =>
    match joinThread th with
    | .ok _ => dropJoinAll ws
    | .error e => .error e

/-! ### The HTTP glue of `src/main.rs` -/

/-- The request-line dispatch of `handle_connection` (src/main.rs lines
28-35): a canned (status line, filename) pair per route.  The `/sleep` route
additionally sleeps five seconds, which does not change the response. -/
def routeRequest (request_line : String) : String × String :=
  if request_line = "GET / HTTP/1.1" then ("HTTP/1.1 200 OK", "static/index.html")
  else if request_line = "GET /sleep HTTP/1.1" then ("HTTP/1.1 200 OK", "static/index.html")
  else ("HTTP/1.1 404 NOT FOUND", "static/404.html")

/-- The response string built by `handle_connection` (src/main.rs lines
37-42).  `length = contents.len()` is the UTF-8 byte count of the body, and
the `format!` string interpolates status line, CRLF, the Content-Length
header, CRLF, an empty line (CRLF), then the body. -/
def buildResponse (status_line contents : String) : String :=
  status_line ++ "\r\n" ++ "Content-Length: " ++ toString contents.utf8ByteSize
    ++ "\r\n" ++ "\r\n" ++ contents

/-- Model of `handle_connection` (src/main.rs lines 23-43) restricted to its
response-writing step: `fs filename` stands for what `fs::read_to_string`
returns for that file. -/
def handle_connection (fs : String → String) (request_line : String) : String :=
  let sf := routeRequest request_line
  buildResponse sf.1 (fs sf.2)

/-! ### Derived facts used by several claims -/

lemma workers_length {size : Nat} {s : PoolState} (inv : Inv size s) :
    s.workers.length = size := by
  have := congrArg List.length inv.ids
  simpa using this

lemma claimed_nodup {size : Nat} {s : PoolState} (inv : Inv size s) : s.claimed.Nodup := by
  have h : (s.claimed ++ s.queue).Nodup := by
    rw [inv.fifo, inv.sub]; exact List.nodup_range _
  exact h.of_append_left

/-! ### Claim theorems -/

/-- C2: for every `size ≥ 1`, `ThreadPool::new(size)` succeeds and spawns
exactly `size` workers with identifiers `0..size`, storing the producer
handle; for `size = 0` it always panics instead of returning. -/
theorem construct_spawns_workers :
    (∀ size : Nat, 0 < size →
       ThreadPool.new size = some (initState size) ∧
       (initState size).workers.length = size ∧
       (initState size).workers.map Worker.id = List.range size ∧
       (initState size).senderOpen = true) ∧
    ThreadPool.new 0 = none := by
  constructor
  · intro size hs
    refine ⟨?_, by simp [initState], ?_, rfl⟩
    · rw [ThreadPool.new, if_neg (by omega)]
    · show ((List.range size).map fun id => (⟨id, .idle⟩ : Worker)).map Worker.id = _
      rw [List.map_map]
      exact List.map_id'' (fun _ => rfl) _
  · rfl

/-- Witness for C2 at `size = 3`. -/
theorem construct_spawns_workers_witness :
    0 < 3 ∧
    (ThreadPool.new 3 = some (initState 3) ∧
     (initState 3).workers.length = 3 ∧
     (initState 3).workers.map Worker.id = List.range 3 ∧
     (initState 3).senderOpen = true) :=
  ⟨by decide, construct_spawns_workers.1 3 (by decide)⟩

/-- C6: calling `execute` after the producer handle was already dropped
(shutdown began) is fatal: `self.sender.as_ref().unwrap()` panics, the
failure terminates the caller instead of being retried or recovered, and no
job is enqueued. -/
theorem execute_after_drop_panics (s : PoolState) (h : s.owner ≠ .accepting) :
    ThreadPool.execute s = .error "panicked: unwrap on a None value" ∧
    ∀ t, ThreadPool.execute s ≠ .ok t := by
  have hex : ThreadPool.execute s = .error "panicked: unwrap on a None value" := by
    unfold ThreadPool.execute
    cases ho : s.owner with
    | accepting => exact absurd ho h
    | joining k => rfl
    | done => rfl
  exact ⟨hex, fun t ht => by rw [hex] at ht; cases ht⟩

/-- Witness for C6: a pool whose sender was taken by `drop`. -/
theorem execute_after_drop_panics_witness :
    ThreadPool.execute
        { queue := [], workers := [⟨0, WState.idle⟩], owner := OwnerPhase.joining 0,
          nextId := 0, submitted := [], claimed := [], executed := [] }
      = .error "panicked: unwrap on a None value" :=
  (execute_after_drop_panics _ (by decide)).1

/-- C7: on a live pool, `execute` boxes the callable into a fresh job,
appends it to the unbounded channel and returns at once with `ok`,
whatever the queue contents and worker states are: it never waits for
execution, changes no worker, and reports nothing about completion.  The
successful send is exactly one `submit` transition of the system. -/
theorem execute_enqueues_nonblocking (s : PoolState) (h : s.owner = .accepting) :
    ∃ t, ThreadPool.execute s = .ok t ∧
      t.queue = s.queue ++ [s.nextId] ∧
      t.workers = s.workers ∧
      t.owner = s.owner ∧
      t.executed = s.executed ∧
      Step s t := by
  refine ⟨{ s with
              queue := s.queue ++ [s.nextId]
              submitted := s.submitted ++ [s.nextId]
              nextId := s.nextId + 1 }, ?_, rfl, rfl, rfl, rfl, Step.submit s h⟩
  unfold ThreadPool.execute
  cases ho : s.owner with
  | accepting => rfl
  | joining k => exact absurd ho (by rw [h]; simp)
  | done => exact absurd ho (by rw [h]; simp)

/-- Witness for C7 on a live single-worker pool. -/
theorem execute_enqueues_nonblocking_witness :
    ∃ t, ThreadPool.execute (initState 1) = .ok t ∧
      t.queue = (initState 1).queue ++ [(initState 1).nextId] ∧
      t.workers = (initState 1).workers ∧
      t.owner = (initState 1).owner ∧
      t.executed = (initState 1).executed ∧
      Step (initState 1) t :=
  execute_enqueues_nonblocking (initState 1) rfl

/-- C8: if some worker thread terminated abnormally (panicked), the join
loop of `drop` surfaces the failure to the caller as a panic instead of
swallowing it; it returns cleanly exactly when no joined thread panicked. -/
theorem join_failure_propagates (ws : List (Option ThreadOutcome)) :
    (dropJoinAll ws = .ok () ↔ ∀ th ∈ ws, th ≠ some .panicked) ∧
    ((∃ th ∈ ws, th = some .panicked) → dropJoinAll ws = .error "thread panicked") := by
  induction ws with
  | nil =>
    refine ⟨by simp [dropJoinAll], ?_⟩
    rintro ⟨th, hmem, _⟩
    simp at hmem
  | cons hd tl ih =>
    cases hd with
    | none =>
      refine ⟨?_, ?_⟩
      · rw [show dropJoinAll (none :: tl) = dropJoinAll tl from rfl, ih.1]
        constructor
        · intro hall th hth
          rcases List.mem_cons.1 hth with rfl | hmem
          · simp
          · exact hall th hmem
        · intro hall th hth
          exact hall th (List.mem_cons_of_mem _ hth)
      · rintro ⟨th, hmem, rfl⟩
        rcases List.mem_cons.1 hmem with h0 | hmem'
        · cases h0
        · exact ih.2 ⟨_, hmem', rfl⟩
    | some th =>
      cases th with
      | finished =>
        refine ⟨?_, ?_⟩
        · rw [show dropJoinAll (some .finished :: tl) = dropJoinAll tl from rfl, ih.1]
          constructor
          · intro hall th hth
            rcases List.mem_cons.1 hth with rfl | hmem
            · simp
            · exact hall th hmem
          · intro hall th hth
            exact hall th (List.mem_cons_of_mem _ hth)
        · rintro ⟨th, hmem, rfl⟩
          rcases List.mem_cons.1 hmem with h0 | hmem'
          · cases h0
          · exact ih.2 ⟨_, hmem', rfl⟩
      | panicked =>
        refine ⟨?_, fun _ => rfl⟩
        constructor
        · intro hok
          cases hok
        · intro hall
          exact absurd rfl (hall (some .panicked) (List.mem_cons_self _ _))

/-- Witness for C8: one healthy thread, then one panicked thread. -/
theorem join_failure_propagates_witness :
    dropJoinAll [some ThreadOutcome.finished, some ThreadOutcome.panicked]
      = .error "thread panicked" :=
  (join_failure_propagates _).2 ⟨some ThreadOutcome.panicked, by decide, rfl⟩

/-- C10: for every connection that reaches the response-writing step, the
Content-Length header value equals the byte length of the file contents used
as the body (`contents.len()` counts UTF-8 bytes), and the response is
exactly status line, CRLF, the Content-Length header, CRLF, a blank line and
the body. -/
theorem response_content_length (fs : String → String) (request_line : String) :
    ∃ status_line contents : String,
      status_line = (routeRequest request_line).1 ∧
      contents = fs (routeRequest request_line).2 ∧
      handle_connection fs request_line =
        status_line ++ "\r\n" ++ ("Content-Length: " ++ toString contents.toUTF8.size)
          ++ "\r\n" ++ "\r\n" ++ contents := by
  refine ⟨(routeRequest request_line).1, fs (routeRequest request_line).2, rfl, rfl, ?_⟩
  rw [String.size_toUTF8]
  simp only [handle_connection, buildResponse, String.append_assoc]

/-- C1: along every reachable execution, no job is claimed or executed more
than once, no two workers ever hold the same job, no accepted job is lost
(it is still queued, in flight, or already executed), and once every worker
thread has exited the multiset of executed jobs is exactly the multiset of
submitted jobs: each accepted job was executed exactly once by exactly one
worker. -/
theorem exactly_once_delivery {size : Nat} {s : PoolState} (h : Reachable size s) :
    s.claimed.Nodup ∧
    (s.executed.map Prod.snd).Nodup ∧
    s.workers.Pairwise (fun a b => ∀ j, a.jobOf = some j → b.jobOf ≠ some j) ∧
    (∀ j ∈ s.submitted, j ∈ s.queue ∨ j ∈ inflight s ∨ j ∈ s.executed.map Prod.snd) ∧
    (0 < size → (∀ w ∈ s.workers, w.state = .terminated) →
      (s.executed.map Prod.snd).Perm s.submitted) := by
  have inv := reachable_inv h
  have hcl : s.claimed.Nodup := claimed_nodup inv
  have hclm : (↑s.claimed : Multiset Nat).Nodup := Multiset.coe_nodup.2 hcl
  refine ⟨hcl, ?_, ?_, ?_, ?_⟩
  · have hle : (↑(s.executed.map Prod.snd) : Multiset Nat) ≤ ↑s.claimed := by
      rw [← inv.acct]; exact Multiset.le_add_right _ _
    exact Multiset.coe_nodup.1 (Multiset.nodup_of_le hle hclm)
  · have hle : (↑(inflight s) : Multiset Nat) ≤ ↑s.claimed := by
      rw [← inv.acct]; exact Multiset.le_add_left _ _
    have hn : (inflight s).Nodup := Multiset.coe_nodup.1 (Multiset.nodup_of_le hle hclm)
    exact pairwise_of_filterMap_nodup Worker.jobOf s.workers hn
  · intro j hj
    rw [← inv.fifo] at hj
    rcases List.mem_append.1 hj with hjc | hjq
    · have hjm : j ∈ (↑s.claimed : Multiset Nat) := Multiset.mem_coe.2 hjc
      rw [← inv.acct] at hjm
      rcases Multiset.mem_add.1 hjm with hl | hr
      · right; right; exact Multiset.mem_coe.1 hl
      · right; left; exact Multiset.mem_coe.1 hr
    · left; exact hjq
  · intro hpos hterm
    have hinf : inflight s = [] := by
      rw [inflight, List.filterMap_eq_nil_iff]
      intro w hwmem
      simp [Worker.jobOf, hterm w hwmem]
    have hq : s.queue = [] := by
      refine inv.drained ?_ hterm
      intro hnil
      have hlen := workers_length inv
      rw [hnil] at hlen
      simp at hlen
      omega
    have hcoe : (↑(s.executed.map Prod.snd) : Multiset Nat) = ↑s.submitted := by
      have hacc := inv.acct
      rw [hinf] at hacc
      have hfifo := inv.fifo
      rw [hq, List.append_nil] at hfifo
      rw [← hfifo, ← hacc]
      simp
    exact Multiset.coe_eq_coe.1 hcoe

/-- C3: the `drop` protocol is two-phase.  While the join loop is at worker
`k`, the producer handle is already closed and workers `0..k` have been
joined only after their threads exited; when `drop` has returned, the channel
has been drained (no job is still enqueued-but-unclaimed), no job is still
executing, every accepted job was delivered to a worker before the disconnect
signal, and every worker thread has exited. -/
theorem shutdown_two_phase {size : Nat} {s : PoolState} (hsize : 0 < size)
    (h : Reachable size s) :
    (∀ k, s.owner = .joining k → s.senderOpen = false ∧
        ∀ (i : Nat) (w : Worker), i < k → s.workers[i]? = some w →
          w.state = .terminated) ∧
    (s.owner = .done → s.queue = [] ∧ inflight s = [] ∧ s.claimed = s.submitted ∧
        ∀ w ∈ s.workers, w.state = .terminated) := by
  have inv := reachable_inv h
  constructor
  · intro k hk
    refine ⟨by simp [PoolState.senderOpen, hk], (inv.joined k hk).2⟩
  · intro hdone
    have hterm := inv.doneAll hdone
    have hinf : inflight s = [] := by
      rw [inflight, List.filterMap_eq_nil_iff]
      intro w hwmem
      simp [Worker.jobOf, hterm w hwmem]
    have hq : s.queue = [] := by
      refine inv.drained ?_ hterm
      intro hnil
      have hlen := workers_length inv
      rw [hnil] at hlen
      simp at hlen
      omega
    have hcs : s.claimed = s.submitted := by
      have hfifo := inv.fifo
      rwa [hq, List.append_nil] at hfifo
    exact ⟨hq, hinf, hcs, hterm⟩

/-- C5: jobs are dequeued from the channel in exactly FIFO submission order
(the claim history followed by the remaining queue is the submission
history); with a single worker the execution history is a prefix of the
submission order, so jobs run in exactly the order submitted. -/
theorem fifo_order {size : Nat} {s : PoolState} (h : Reachable size s) :
    s.claimed ++ s.queue = s.submitted ∧
    (s.workers.length = 1 →
      ∃ t, s.executed.map Prod.snd ++ t = s.submitted) := by
  have inv := reachable_inv h
  refine ⟨inv.fifo, ?_⟩
  intro h1
  exact ⟨inflight s ++ s.queue, by
    rw [← List.append_assoc, inv.single h1, inv.fifo]⟩

/-- Weight of one worker control point toward the shutdown measure: the
number of remaining micro-steps of its loop, assuming it receives no further
job. -/
def wWeight : WState → Nat
  | .idle => 2
  | .receiving => 1
  | .running _ => 3
  | .terminated => 0

/-- Remaining steps of the owner during `drop`. -/
def ownerWeight (s : PoolState) : Nat :=
  match s.owner with
  | .accepting => 0
  | .joining k => s.workers.length + 1 - k
  | .done => 0

/-- Termination measure for the shutdown phase: once the sender is dropped,
every step of the system strictly decreases it. -/
def shutdownMeasure (s : PoolState) : Nat :=
  3 * s.queue.length + (s.workers.map fun w => wWeight w.state).sum + ownerWeight s

/-- C4: (i) `terminated` is terminal — no transition changes a worker that
has exited; (ii) after the producer handle is closed every step of the
system strictly decreases a natural-number measure, so shutdown cannot run
forever; (iii) a closed system with a worker that has not yet exited always
has a step to take — in particular a worker blocked in `receive` on an empty
closed channel can take the disconnect signal and exit.  Together: after
close, every worker's receive eventually returns the disconnect signal and
its thread terminates, even if the queue was empty at closure time. -/
theorem shutdown_always_terminates :
    (∀ (s t : PoolState) (i wid : Nat), Step s t →
        s.workers[i]? = some ⟨wid, .terminated⟩ →
        t.workers[i]? = some ⟨wid, .terminated⟩) ∧
    (∀ s t : PoolState, s.owner ≠ .accepting → Step s t →
        shutdownMeasure t < shutdownMeasure s) ∧
    (∀ s : PoolState, s.owner ≠ .accepting →
        (∃ (i : Nat) (w : Worker), s.workers[i]? = some w ∧ w.state ≠ .terminated) →
        ∃ t, Step s t) := by
  refine ⟨?_, ?_, ?_⟩
  · intro s t i wid hstep hterm
    cases hstep with
    | submit h => exact hterm
    | startDrop h => exact hterm
    | acquire i0 wid0 hw hlock =>
      have hne : i ≠ i0 := by
        intro he; subst he; rw [hterm] at hw; simp at hw
      show (s.workers.set i0 _)[i]? = _
      rw [List.getElem?_set_ne (Ne.symm hne)]; exact hterm
    | recvOk i0 wid0 j rest hw hq =>
      have hne : i ≠ i0 := by
        intro he; subst he; rw [hterm] at hw; simp at hw
      show (s.workers.set i0 _)[i]? = _
      rw [List.getElem?_set_ne (Ne.symm hne)]; exact hterm
    | recvDisc i0 wid0 hw hq hc =>
      have hne : i ≠ i0 := by
        intro he; subst he; rw [hterm] at hw; simp at hw
      show (s.workers.set i0 _)[i]? = _
      rw [List.getElem?_set_ne (Ne.symm hne)]; exact hterm
    | finish i0 wid0 j hw =>
      have hne : i ≠ i0 := by
        intro he; subst he; rw [hterm] at hw; simp at hw
      show (s.workers.set i0 _)[i]? = _
      rw [List.getElem?_set_ne (Ne.symm hne)]; exact hterm
    | joinStep k wid0 ho hw => exact hterm
    | finishDrop k ho hk => exact hterm
  · intro s t hna hstep
    cases hstep with
    | submit h => exact absurd h hna
    | startDrop h => exact absurd h hna
    | acquire i wid hw hlock =>
      have hsum := sum_map_set (fun w => wWeight w.state) s.workers i _ ⟨wid, .receiving⟩ hw
      have how : ownerWeight { s with workers := s.workers.set i ⟨wid, .receiving⟩ }
          = ownerWeight s := by
        simp [ownerWeight, List.length_set]
      have hsum2 : ((s.workers.set i ⟨wid, .receiving⟩).map fun w => wWeight w.state).sum + 2
          = (s.workers.map fun w => wWeight w.state).sum + 1 := hsum
      simp only [shutdownMeasure, how]
      omega
    | recvOk i wid j rest hw hq =>
      have hsum := sum_map_set (fun w => wWeight w.state) s.workers i _ ⟨wid, .running j⟩ hw
      have how : ownerWeight { s with
          queue := rest
          workers := s.workers.set i ⟨wid, .running j⟩
          claimed := s.claimed ++ [j] } = ownerWeight s := by
        simp [ownerWeight, List.length_set]
      have hsum2 : ((s.workers.set i ⟨wid, .running j⟩).map fun w => wWeight w.state).sum + 1
          = (s.workers.map fun w => wWeight w.state).sum + 3 := hsum
      simp only [shutdownMeasure, how]
      rw [hq]
      simp only [List.length_cons]
      omega
    | recvDisc i wid hw hq hc =>
      have hsum := sum_map_set (fun w => wWeight w.state) s.workers i _ ⟨wid, .terminated⟩ hw
      have how : ownerWeight { s with workers := s.workers.set i ⟨wid, .terminated⟩ }
          = ownerWeight s := by
        simp [ownerWeight, List.length_set]
      have hsum2 : ((s.workers.set i ⟨wid, .terminated⟩).map fun w => wWeight w.state).sum + 1
          = (s.workers.map fun w => wWeight w.state).sum + 0 := hsum
      simp only [shutdownMeasure, how]
      omega
    | finish i wid j hw =>
      have hsum := sum_map_set (fun w => wWeight w.state) s.workers i _ ⟨wid, .idle⟩ hw
      have how : ownerWeight { s with
          workers := s.workers.set i ⟨wid, .idle⟩
          executed := s.executed ++ [(wid, j)] } = ownerWeight s := by
        simp [ownerWeight, List.length_set]
      have hsum2 : ((s.workers.set i ⟨wid, .idle⟩).map fun w => wWeight w.state).sum + 3
          = (s.workers.map fun w => wWeight w.state).sum + 2 := hsum
      simp only [shutdownMeasure, how]
      omega
    | joinStep k wid ho hw =>
      have hklen : k < s.workers.length := (List.getElem?_eq_some.1 hw).1
      have h1 : shutdownMeasure { s with owner := .joining (k + 1) }
          = 3 * s.queue.length + (s.workers.map fun w => wWeight w.state).sum
            + (s.workers.length + 1 - (k + 1)) := rfl
      have h2 : shutdownMeasure s
          = 3 * s.queue.length + (s.workers.map fun w => wWeight w.state).sum
            + (s.workers.length + 1 - k) := by
        simp [shutdownMeasure, ownerWeight, ho]
      rw [h1, h2]
      omega
    | finishDrop k ho hk =>
      have h1 : shutdownMeasure { s with owner := .done }
          = 3 * s.queue.length + (s.workers.map fun w => wWeight w.state).sum + 0 := rfl
      have h2 : shutdownMeasure s
          = 3 * s.queue.length + (s.workers.map fun w => wWeight w.state).sum
            + (s.workers.length + 1 - k) := by
        simp [shutdownMeasure, ownerWeight, ho]
      rw [h1, h2]
      omega
  · intro s hna hex
    obtain ⟨i, w, hw, hnterm⟩ := hex
    obtain ⟨wid, wst⟩ := w
    cases hwst : wst with
    | idle =>
      subst hwst
      by_cases hr : ∀ w' ∈ s.workers, w'.state ≠ .receiving
      · exact ⟨_, Step.acquire s i wid hw hr⟩
      · push_neg at hr
        obtain ⟨w', hw'mem, hw'rec⟩ := hr
        obtain ⟨k, hk⟩ := List.mem_iff_getElem?.1 hw'mem
        obtain ⟨wid', wst'⟩ := w'
        cases hq : s.queue with
        | nil =>
          exact ⟨_, Step.recvDisc s k wid' (by rw [hk]; simp_all) hq hna⟩
        | cons j rest =>
          exact ⟨_, Step.recvOk s k wid' j rest (by rw [hk]; simp_all) hq⟩
    | receiving =>
      subst hwst
      cases hq : s.queue with
      | nil => exact ⟨_, Step.recvDisc s i wid hw hq hna⟩
      | cons j rest => exact ⟨_, Step.recvOk s i wid j rest hw hq⟩
    | running j =>
      subst hwst
      exact ⟨_, Step.finish s i wid j hw⟩
    | terminated =>
      subst hwst
      exact absurd rfl hnterm

/-- C9: (i) in every reachable state at most one worker is inside the
mutex-guarded receive, (ii) a worker that is running a job is never in the
lock-holding state — the `MutexGuard` is a temporary of the `let` statement
and is dropped before `job()` runs — and (iii) a worker executing an
arbitrarily long job never prevents an idle worker from acquiring the lock
and dequeuing the next job: with the lock free and the queue non-empty, the
idle worker can acquire and then claim the head job while the first worker
is still running. -/
theorem lock_released_before_execution :
    (∀ (size : Nat) (s : PoolState), Reachable size s →
       ∀ (i k : Nat) (wi wk : Worker), s.workers[i]? = some wi →
         s.workers[k]? = some wk → wi.state = .receiving → wk.state = .receiving →
         i = k) ∧
    (∀ (w : Worker) (j : Nat), w.state = .running j → w.state ≠ .receiving) ∧
    (∀ (s : PoolState) (i k widi widk j q : Nat) (rest : List Nat),
       s.workers[i]? = some ⟨widi, .running j⟩ →
       s.workers[k]? = some ⟨widk, .idle⟩ →
       (∀ w ∈ s.workers, w.state ≠ .receiving) →
       s.queue = q :: rest →
       ∃ u t, Step s u ∧ Step u t ∧
         t.workers[k]? = some ⟨widk, .running q⟩ ∧
         t.workers[i]? = some ⟨widi, .running j⟩) := by
  refine ⟨?_, ?_, ?_⟩
  · intro size s hreach
    exact (reachable_inv hreach).lock
  · intro w j hrun
    rw [hrun]
    simp
  · intro s i k widi widk j q rest hwi hwk hnorec hq
    have hik : i ≠ k := by
      intro he; subst he; rw [hwi] at hwk; simp at hwk
    have hklen : k < s.workers.length := (List.getElem?_eq_some.1 hwk).1
    refine ⟨{ s with workers := s.workers.set k ⟨widk, .receiving⟩ },
      { s with
          queue := rest
          workers := (s.workers.set k ⟨widk, .receiving⟩).set k ⟨widk, .running q⟩
          claimed := s.claimed ++ [q] },
      Step.acquire s k widk hwk hnorec, ?_, ?_, ?_⟩
    · exact Step.recvOk _ k widk q rest
        (by show (s.workers.set k _)[k]? = _
            rw [List.getElem?_set_eq_of_lt _ hklen])
        hq
    · show ((s.workers.set k ⟨widk, .receiving⟩).set k ⟨widk, .running q⟩)[k]? = _
      rw [List.getElem?_set_eq_of_lt]
      rw [List.length_set]
      exact hklen
    · show ((s.workers.set k ⟨widk, .receiving⟩).set k ⟨widk, .running q⟩)[i]? = _
      rw [List.getElem?_set_ne (Ne.symm hik), List.getElem?_set_ne (Ne.symm hik)]
      exact hwi

/-! ### Concrete runs of the system, used as witnesses -/

/-- A one-worker pool after a complete run: one job submitted, pool dropped,
job drained and executed, worker disconnected and joined. -/
def finalState : PoolState where
  queue := []
  workers := [⟨0, .terminated⟩]
  owner := .done
  nextId := 1
  submitted := [0]
  claimed := [0]
  executed := [(0, 0)]

lemma reach_finalState : Reachable 1 finalState :=
  Relation.ReflTransGen.head (Step.submit (initState 1) rfl)
    (Relation.ReflTransGen.head (Step.startDrop _ rfl)
      (Relation.ReflTransGen.head (Step.acquire _ 0 0 (by decide) (by decide))
        (Relation.ReflTransGen.head (Step.recvOk _ 0 0 0 [] (by decide) (by decide))
          (Relation.ReflTransGen.head (Step.finish _ 0 0 0 (by decide))
            (Relation.ReflTransGen.head (Step.acquire _ 0 0 (by decide) (by decide))
              (Relation.ReflTransGen.head (Step.recvDisc _ 0 0 (by decide) (by decide) (by decide))
                (Relation.ReflTransGen.head (Step.joinStep _ 0 0 (by decide) (by decide))
                  (Relation.ReflTransGen.head (Step.finishDrop _ 1 (by decide) (by decide))
                    Relation.ReflTransGen.refl))))))))

/-- Witness for C1: the completed one-worker run. -/
theorem exactly_once_delivery_witness :
    finalState.claimed.Nodup ∧
    (finalState.executed.map Prod.snd).Nodup ∧
    finalState.workers.Pairwise (fun a b => ∀ j, a.jobOf = some j → b.jobOf ≠ some j) ∧
    (∀ j ∈ finalState.submitted, j ∈ finalState.queue ∨ j ∈ inflight finalState ∨
       j ∈ finalState.executed.map Prod.snd) ∧
    (0 < 1 → (∀ w ∈ finalState.workers, w.state = .terminated) →
      (finalState.executed.map Prod.snd).Perm finalState.submitted) :=
  exactly_once_delivery reach_finalState

/-- Witness for C3: shutdown of the one-worker run has drained everything. -/
theorem shutdown_two_phase_witness :
    (∀ k, finalState.owner = .joining k → finalState.senderOpen = false ∧
        ∀ (i : Nat) (w : Worker), i < k → finalState.workers[i]? = some w →
          w.state = .terminated) ∧
    (finalState.owner = .done → finalState.queue = [] ∧ inflight finalState = [] ∧
        finalState.claimed = finalState.submitted ∧
        ∀ w ∈ finalState.workers, w.state = .terminated) :=
  shutdown_two_phase (by decide) reach_finalState

/-- Witness for C5: FIFO order on the completed one-worker run. -/
theorem fifo_order_witness :
    finalState.claimed ++ finalState.queue = finalState.submitted ∧
    (finalState.workers.length = 1 →
      ∃ t, finalState.executed.map Prod.snd ++ t = finalState.submitted) :=
  fifo_order reach_finalState

/-- A one-worker pool whose worker has exited while the join loop is at
worker 0. -/
def joiningState : PoolState where
  queue := []
  workers := [⟨0, .terminated⟩]
  owner := .joining 0
  nextId := 0
  submitted := []
  claimed := []
  executed := []

/-- A closed one-worker pool whose worker is still idle. -/
def closedIdleState : PoolState where
  queue := []
  workers := [⟨0, .idle⟩]
  owner := .joining 0
  nextId := 0
  submitted := []
  claimed := []
  executed := []

/-- Witness for C4: stability of `terminated`, strict measure decrease, and
progress, each at a concrete closed pool. -/
theorem shutdown_always_terminates_witness :
    ({ joiningState with owner := OwnerPhase.joining 1 }).workers[0]?
        = some ⟨0, WState.terminated⟩ ∧
    shutdownMeasure { joiningState with owner := OwnerPhase.joining 1 }
        < shutdownMeasure joiningState ∧
    (∃ t, Step closedIdleState t) :=
  ⟨shutdown_always_terminates.1 joiningState
      { joiningState with owner := OwnerPhase.joining 1 } 0 0
      (Step.joinStep joiningState 0 0 rfl (by decide)) (by decide),
   shutdown_always_terminates.2.1 joiningState
      { joiningState with owner := OwnerPhase.joining 1 } (by decide)
      (Step.joinStep joiningState 0 0 rfl (by decide)),
   shutdown_always_terminates.2.2 closedIdleState (by decide)
      ⟨0, ⟨0, WState.idle⟩, by decide, by decide⟩⟩

/-- A two-worker pool: worker 0 is running job 5, worker 1 is idle, job 7 is
queued, the lock is free. -/
def busyState : PoolState where
  queue := [7]
  workers := [⟨0, .running 5⟩, ⟨1, .idle⟩]
  owner := .accepting
  nextId := 8
  submitted := [5, 7]
  claimed := [5]
  executed := []

/-- Witness for C9: at `busyState` the idle worker 1 dequeues job 7 while
worker 0 keeps running job 5. -/
theorem lock_released_before_execution_witness :
    (∀ (i k : Nat) (wi wk : Worker), (initState 1).workers[i]? = some wi →
       (initState 1).workers[k]? = some wk → wi.state = .receiving →
       wk.state = .receiving → i = k) ∧
    ((⟨0, WState.running 5⟩ : Worker).state ≠ WState.receiving) ∧
    (∃ u t, Step busyState u ∧ Step u t ∧
       t.workers[1]? = some ⟨1, WState.running 7⟩ ∧
       t.workers[0]? = some ⟨0, WState.running 5⟩) :=
  ⟨lock_released_before_execution.1 1 (initState 1) Relation.ReflTransGen.refl,
   lock_released_before_execution.2.1 ⟨0, WState.running 5⟩ 5 rfl,
   lock_released_before_execution.2.2 busyState 0 1 0 1 5 7 []
     (by decide) (by decide) (by decide) (by decide)⟩

end HttpServer
